import Mathlib

/-!
Verification of the FlowSort file-organization engine (src/flowsort.py).

The development is a shallow embedding of the core operations:
the heuristic classifier (HeuristicClassifier), the conflict-safe move
into the all/ directory (FlowSort.move_file_to_all), the category symlink
fan-out (FlowSort.create_category_symlink), the broken-symlink sweep
(FlowSort.cleanup_broken_symlinks), directory statistics
(FlowSort.get_file_stats), the downloads collector
(FlowSort.collect_downloads) and the xattr tag store (XattrTagManager).

Modelling conventions:
* Python strings are Lean `String`; character-level operations are done on
  `String.data` (a `List Char`) with structurally recursive helpers so that
  concrete instances evaluate inside the kernel.
* The result of `mimetypes.guess_type` is passed to the classifier as an
  oracle argument (`Option String`), since the stdlib MIME table is an
  external lookup keyed on the filename.
* Directories are association lists from entry names to payloads; the
  filesystem calls `os.getxattr` / `os.setxattr` / `os.removexattr` are
  modelled on an association list of attribute names to values, with an
  explicit set of attribute names whose writes the filesystem rejects.
* Python `while` loops whose termination relies on the directory being a
  finite set are modelled with an explicit fuel argument, together with
  lemmas showing that enough fuel always exists.
-/

namespace Flowsort

/-! ## Character-level string helpers -/

/-- Lowercase a string character by character, modelling Python str.lower
as used on extensions and suffixes (which are ASCII in practice). -/
def lowerStr (s : String) : String :=
  ⟨s.data.map Char.toLower⟩

/-- Boolean test that `p` is a prefix of `s`, modelling Python str.startswith. -/
def startsWithStr (s p : String) : Bool :=
  p.data.isPrefixOf s.data

/-- Boolean test that `p` occurs as a contiguous substring of `s`,
modelling the Python expression `p in s` on strings. -/
def containsStr (s p : String) : Bool :=
  decide (p.data <:+: s.data)

/-- Strip leading and trailing whitespace, modelling Python str.strip(). -/
def trimStr (s : String) : String :=
  ⟨((s.data.dropWhile Char.isWhitespace).reverse.dropWhile Char.isWhitespace).reverse⟩

/-- Split a string on commas, modelling Python str.split(","). -/
def splitComma (s : String) : List String :=
  (s.data.splitOn ',').map (fun l => ⟨l⟩)

/-- Join a list of strings with commas, modelling Python ",".join(...). -/
def joinComma (l : List String) : String :=
  String.intercalate "," l

/-- Lookup in an association list by key, modelling a Python dict read
(first binding wins; update functions below remove older bindings). -/
def alookup {β : Type} : List (String × β) → String → Option β
  | [], _ => none
  | (k, v) :: rest, key => if key = k then some v else alookup rest key

/-! ## Python pathlib suffix and stem

CPython PurePath.suffix of a name: with i the index of the last dot,
the substring name[i:] when 0 < i < len(name) - 1, otherwise the empty
string; PurePath.stem is name[:i] under the same condition, otherwise
the whole name.  These operate on the final path component, which is how
the embedding represents a file name. -/

/-- Index of the last dot of a character list: position of the last
occurrence of the dot character, or the length when there is none
(CPython str.rfind returns -1 in that case; the guard below rules both out). -/
def lastDotIndex (cs : List Char) : Nat :=
  if cs.reverse.indexOf '.' < cs.length then cs.length - 1 - cs.reverse.indexOf '.'
  else cs.length

/-- Python Path(name).suffix for a file name. -/
def pySuffix (name : String) : String :=
  let cs := name.data
  let i := lastDotIndex cs
  if 0 < i ∧ i < cs.length - 1 ∧ i < cs.length then ⟨cs.drop i⟩ else ""

/-- Python Path(name).stem for a file name. -/
def pyStem (name : String) : String :=
  let cs := name.data
  let i := lastDotIndex cs
  if 0 < i ∧ i < cs.length - 1 ∧ i < cs.length then ⟨cs.take i⟩ else ⟨cs⟩

/-! ## HeuristicClassifier (src/flowsort.py lines 497-539) -/

/-- The reverse extension-to-category map built in HeuristicClassifier.__init__:
for each (category, extensions) pair in configuration order, each lowercased
extension is bound to the category; a later binding overwrites an earlier one,
exactly like the Python dict assignment in the construction loop. -/
def extension_map (categories : List (String × List String)) : String → Option String :=
  categories.foldl
    (fun m p => p.2.foldl (fun m2 e => fun k => if k = lowerStr e then some p.1 else m2 k) m)
    (fun _ => none)

/-- HeuristicClassifier.classify_file.  The first argument is the configured
category-to-extensions mapping, `mime` is the oracle result of
mimetypes.guess_type for the file path, and `name` is the file name. -/
def classify_file (categories : List (String × List String))
    (mime : Option String) (name : String) : String :=
  let suffix := lowerStr (pySuffix name)
  match extension_map categories suffix with
  | some c => c
  | none =>
    match mime with
    | some m =>
      if startsWithStr m "text/" then "documents"
      else if startsWithStr m "image/" then "images"
      else if startsWithStr m "video/" || startsWithStr m "audio/" then "media"
      else if startsWithStr m "application/" then
        if containsStr m "pdf" then "documents"
        else if containsStr m "zip" || containsStr m "tar" || containsStr m "compressed" then
          "archives"
        else "misc"
      else "misc"
    | none => "misc"

/-- HeuristicClassifier.get_confidence: 0.9 for a direct extension match of the
queried category, 0.6 otherwise.  Confidences are modelled as rationals. -/
def get_confidence (categories : List (String × List String))
    (name category : String) : ℚ :=
  let suffix := lowerStr (pySuffix name)
  if extension_map categories suffix = some category then 9/10 else 6/10

/-- Modelled from the spec: the MIME fallback table of section 4.1 step 3,
written from the words of the spec (text/* to documents, image/* to images,
video/* or audio/* to media, application/pdf to documents, application MIME
types containing zip, tar or compressed to archives, anything else to misc). -/
def specMimeFallback (mime : Option String) : String :=
  match mime with
  | some m =>
    if startsWithStr m "text/" then "documents"
    else if startsWithStr m "image/" then "images"
    else if startsWithStr m "video/" || startsWithStr m "audio/" then "media"
    else if m = "application/pdf" then "documents"
    else if startsWithStr m "application/" &&
        (containsStr m "zip" || containsStr m "tar" || containsStr m "compressed") then
      "archives"
    else "misc"
  | none => "misc"

/-- C1: for every filename whose lowercased last-dot extension is a key of the
extension-to-category map built by inverting the configured mapping,
classify_file returns the mapped category and get_confidence for that category
returns 0.9, regardless of any MIME guess for the filename. -/
theorem classify_extension_precedence
    (categories : List (String × List String)) (mime : Option String)
    (name c : String)
    (h : extension_map categories (lowerStr (pySuffix name)) = some c) :
    classify_file categories mime name = c ∧
      get_confidence categories name c = 9/10 := by
  refine ⟨?_, ?_⟩
  · simp only [classify_file, h]
  · simp only [get_confidence, h, if_pos]

/-- Witness for C1 at a concrete configuration, filename and MIME guess:
the upper-case extension .PDF is registered for documents, and the MIME oracle
answering application/zip does not affect the result. -/
theorem classify_extension_precedence_witness :
    classify_file [("documents", [".pdf", ".txt"]), ("images", [".jpg"])]
        (some "application/zip") "Report.PDF" = "documents" ∧
      get_confidence [("documents", [".pdf", ".txt"]), ("images", [".jpg"])]
        "Report.PDF" "documents" = 9/10 :=
  classify_extension_precedence
    [("documents", [".pdf", ".txt"]), ("images", [".jpg"])]
    (some "application/zip") "Report.PDF" "documents" (by decide)

/-- C5: for every filename whose extension is not registered in the category
map, classify_file returns exactly the MIME-based category of the fallback
table stated by the spec, and get_confidence returns 0.6 for whatever category
is queried.  The hypothesis on the oracle makes the exact application/pdf row
of the spec and the substring test of the code coincide; every value the
Python mimetypes table can produce satisfies it, since application/pdf is the
only application type it knows whose name contains pdf. -/
theorem classify_mime_fallback
    (categories : List (String × List String)) (mime : Option String) (name : String)
    (hreg : extension_map categories (lowerStr (pySuffix name)) = none)
    (hpdf : ∀ m, mime = some m → startsWithStr m "application/" = true →
      containsStr m "pdf" = true → m = "application/pdf") :
    classify_file categories mime name = specMimeFallback mime ∧
      ∀ category, get_confidence categories name category = 6/10 := by
  constructor
  · cases mime with
    | none => simp [classify_file, specMimeFallback, hreg]
    | some m =>
      simp only [classify_file, hreg, specMimeFallback]
      by_cases h1 : startsWithStr m "text/" = true
      · simp [h1]
      · simp only [h1, Bool.false_eq_true, if_false]
        by_cases h2 : startsWithStr m "image/" = true
        · simp [h2]
        · simp only [h2, Bool.false_eq_true, if_false]
          by_cases h3 : (startsWithStr m "video/" || startsWithStr m "audio/") = true
          · simp [h3]
          · simp only [h3, Bool.false_eq_true, if_false]
            by_cases ha : startsWithStr m "application/" = true
            · by_cases hp : containsStr m "pdf" = true
              · have hm : m = "application/pdf" := hpdf m rfl ha hp
                subst hm
                simp [ha, hp]
              · have hne : m ≠ "application/pdf" := by
                  intro hm; subst hm; exact hp (by decide)
                simp [ha, hp, hne]
            · have hne : m ≠ "application/pdf" := by
                intro hm; subst hm; exact ha (by decide)
              simp [ha, hne]
  · intro category
    simp only [get_confidence, hreg]
    simp

/-- Witness for C5 at a concrete configuration, filename and MIME guess:
notes.xyz is unregistered, the oracle answers application/x-tar, the
classification is the fallback result and the confidence for an arbitrary
queried category (media) is 0.6. -/
theorem classify_mime_fallback_witness :
    classify_file [("documents", [".pdf", ".txt"])] (some "application/x-tar")
        "notes.xyz" = specMimeFallback (some "application/x-tar") ∧
      get_confidence [("documents", [".pdf", ".txt"])] "notes.xyz" "media" = 6/10 := by
  have h := classify_mime_fallback [("documents", [".pdf", ".txt"])]
    (some "application/x-tar") "notes.xyz" (by decide)
    (by intro m hm hs hc
        injection hm with hm
        subst hm
        exact absurd hc (by decide))
  exact ⟨h.1, h.2 "media"⟩

/-! ## Decimal rendering of the conflict counter

Python renders the conflict counter with an f-string, in decimal.  The
renderer below is structurally recursive (so concrete instances reduce in the
kernel) and is proved injective, which the pigeonhole argument for the
conflict loop needs. -/

/-- Little-endian decimal digits of `n`, recursion on a fuel bound that the
callers instantiate with `n` itself. -/
def decDigitsAux : Nat → Nat → List Nat
  | _, 0 => []
  | 0, _ + 1 => []
  | f + 1, n + 1 => ((n + 1) % 10) :: decDigitsAux f ((n + 1) / 10)

/-- Decimal rendering of a natural number, modelling the Python f-string
interpolation of the conflict counter. -/
def decimalRepr (n : Nat) : String :=
  if n = 0 then "0" else ⟨((decDigitsAux n n).reverse.map Nat.digitChar)⟩

/-- Value recovered from a little-endian digit list. -/
def ofDecDigits (l : List Nat) : Nat :=
  l.foldr (fun d acc => d + 10 * acc) 0

theorem ofDecDigits_decDigitsAux : ∀ f n, n ≤ f → ofDecDigits (decDigitsAux f n) = n := by
  intro f
  induction f with
  | zero =>
    intro n hn
    interval_cases n
    simp [decDigitsAux, ofDecDigits]
  | succ f ih =>
    intro n hn
    match n with
    | 0 => simp [decDigitsAux, ofDecDigits]
    | n + 1 =>
      have hdiv : (n + 1) / 10 ≤ f := by
        have h1 : (n + 1) / 10 < n + 1 := Nat.div_lt_self (Nat.succ_pos n) (by omega)
        omega
      simp only [decDigitsAux, ofDecDigits, List.foldr_cons]
      have := ih ((n + 1) / 10) hdiv
      simp only [ofDecDigits] at this
      rw [this]
      omega

theorem decDigitsAux_lt_ten : ∀ f n d, d ∈ decDigitsAux f n → d < 10 := by
  intro f
  induction f with
  | zero =>
    intro n d hd
    match n with
    | 0 => simp [decDigitsAux] at hd
    | n + 1 => simp [decDigitsAux] at hd
  | succ f ih =>
    intro n d hd
    match n with
    | 0 => simp [decDigitsAux] at hd
    | n + 1 =>
      simp only [decDigitsAux, List.mem_cons] at hd
      rcases hd with h | h
      · subst h; exact Nat.mod_lt _ (by omega)
      · exact ih _ _ h

theorem digitChar_inj_lt : ∀ m, m < 16 → ∀ n, n < 16 → Nat.digitChar m = Nat.digitChar n → m = n := by
  decide

theorem map_digitChar_inj : ∀ l1 l2 : List Nat, (∀ d ∈ l1, d < 16) → (∀ d ∈ l2, d < 16) →
    l1.map Nat.digitChar = l2.map Nat.digitChar → l1 = l2 := by
  intro l1
  induction l1 with
  | nil =>
    intro l2 _ _ h
    cases l2 with
    | nil => rfl
    | cons b bs => simp at h
  | cons a as ih =>
    intro l2 h1 h2 h
    cases l2 with
    | nil => simp at h
    | cons b bs =>
      simp only [List.map_cons, List.cons.injEq] at h
      have ha : a = b := digitChar_inj_lt a (h1 a (by simp)) b (h2 b (by simp)) h.1
      have hs : as = bs := ih bs (fun d hd => h1 d (by simp [hd])) (fun d hd => h2 d (by simp [hd])) h.2
      rw [ha, hs]

theorem decimalRepr_ne_zero_str : ∀ m : Nat, m ≠ 0 → decimalRepr m ≠ "0" := by
  intro m hm h
  simp only [decimalRepr, if_neg hm] at h
  have hdata := congrArg String.data h
  have h0 : ("0" : String).data = ['0'] := rfl
  rw [h0] at hdata
  simp only at hdata
  have hlen := congrArg List.length hdata
  simp only [List.length_map, List.length_reverse, List.length_cons, List.length_nil] at hlen
  obtain ⟨d, hd⟩ := List.length_eq_one.mp (by simpa using hlen)
  rw [hd] at hdata
  simp only [List.reverse_singleton, List.map_cons, List.map_nil, List.cons.injEq] at hdata
  have hdlt : d < 10 := decDigitsAux_lt_ten m m d (by rw [hd]; simp)
  have hd0 : d = 0 :=
    digitChar_inj_lt d (by omega) 0 (by omega) (by rw [hdata.1]; rfl)
  have hval := ofDecDigits_decDigitsAux m m le_rfl
  rw [hd, hd0] at hval
  simp [ofDecDigits] at hval
  exact hm hval.symm

theorem decimalRepr_injective : Function.Injective decimalRepr := by
  have key : ∀ n : Nat, n ≠ 0 → ∀ m : Nat, m ≠ 0 → decimalRepr n = decimalRepr m → n = m := by
    intro n hn m hm h
    simp only [decimalRepr, if_neg hn, if_neg hm] at h
    have hdata := congrArg String.data h
    simp only at hdata
    have hrev : (decDigitsAux n n).reverse = (decDigitsAux m m).reverse := by
      apply map_digitChar_inj _ _ ?_ ?_ hdata
      · intro d hd
        exact Nat.lt_trans (decDigitsAux_lt_ten n n d (List.mem_reverse.mp hd)) (by omega)
      · intro d hd
        exact Nat.lt_trans (decDigitsAux_lt_ten m m d (List.mem_reverse.mp hd)) (by omega)
    have hdig : decDigitsAux n n = decDigitsAux m m := by
      have := congrArg List.reverse hrev
      simpa using this
    have h1 := ofDecDigits_decDigitsAux n n le_rfl
    have h2 := ofDecDigits_decDigitsAux m m le_rfl
    rw [← h1, ← h2, hdig]
  intro n m h
  by_cases hn : n = 0
  · by_cases hm : m = 0
    · rw [hn, hm]
    · exfalso
      subst hn
      exact decimalRepr_ne_zero_str m hm h.symm
  · by_cases hm : m = 0
    · exfalso
      subst hm
      exact decimalRepr_ne_zero_str n hn h
    · exact key n hn m hm h

/-! ## FlowSort.move_file_to_all (src/flowsort.py lines 651-664) -/

/-- The conflict candidate name built by the loop body of move_file_to_all,
the Python f-string with stem, underscore, counter and suffix. -/
def conflictName (stem ext : String) (n : Nat) : String :=
  stem ++ "_" ++ decimalRepr n ++ ext

theorem conflictName_injective (stem ext : String) :
    Function.Injective (conflictName stem ext) := by
  intro m n h
  apply decimalRepr_injective
  have hdata := congrArg String.data h
  simp only [conflictName, String.data_append] at hdata
  have h1 := List.append_cancel_right hdata
  have h2 := List.append_cancel_left h1
  exact String.ext h2

/-- Association list modelling the listing of an all/ directory: entry name to
file content, with contents identified by natural numbers. -/
abbrev AllDir := List (String × Nat)

/-- Existence test for a name in the directory, modelling target_file.exists(). -/
def existsFile (st : AllDir) (name : String) : Bool :=
  (alookup st name).isSome

/-- Candidate sequence tried by move_file_to_all: the original basename first
(index 0), then the conflict names with counters 1, 2, ... -/
def candidateName (name stem ext : String) (n : Nat) : String :=
  if n = 0 then name else conflictName stem ext n

/-- The while loop of move_file_to_all: keeps the current candidate target and
the next counter value.  The fuel argument bounds the number of retries; the
Python loop needs no fuel only because the directory is finite, and the
lemmas below discharge the fuel at the true collision index. -/
def findTarget (st : AllDir) (stem ext : String) : String → Nat → Nat → Option String
  | target, _, 0 => if existsFile st target then none else some target
  | target, counter, f + 1 =>
    if existsFile st target then
      findTarget st stem ext (conflictName stem ext counter) (counter + 1) f
    else some target

/-- FlowSort.move_file_to_all on the all/ directory listing: chooses the final
name via the conflict loop, then shutil.move adds the entry under that name
(the source directory is not part of this state). -/
def move_file_to_all (st : AllDir) (name : String) (content : Nat) (fuel : Nat) :
    Option (String × AllDir) :=
  match findTarget st (pyStem name) (pySuffix name) name 1 fuel with
  | some target => some (target, (target, content) :: st)
  | none => none

theorem findTarget_eq_candidate (st : AllDir) (name stem ext : String) :
    ∀ fuel k n : Nat, k ≤ n →
      existsFile st (candidateName name stem ext n) = false →
      (∀ m, k ≤ m → m < n → existsFile st (candidateName name stem ext m) = true) →
      n - k ≤ fuel →
      findTarget st stem ext (candidateName name stem ext k) (k + 1) fuel =
        some (candidateName name stem ext n) := by
  intro fuel
  induction fuel with
  | zero =>
    intro k n hk hfree htaken hfuel
    have hkn : k = n := by omega
    subst hkn
    simp [findTarget, hfree]
  | succ f ih =>
    intro k n hk hfree htaken hfuel
    by_cases hkn : k = n
    · subst hkn
      simp [findTarget, hfree]
    · have hklt : k < n := by omega
      have htk : existsFile st (candidateName name stem ext k) = true :=
        htaken k le_rfl hklt
      simp only [findTarget, htk, if_pos]
      have hcand : conflictName stem ext (k + 1) = candidateName name stem ext (k + 1) := by
        simp [candidateName]
      rw [hcand]
      exact ih (k + 1) n (by omega) hfree (fun m hm1 hm2 => htaken m (by omega) hm2) (by omega)

/-- C2: move_file_to_all moves the file under its original basename when that
name is free (candidate index 0); on collision it deterministically picks the
smallest integer n ≥ 1 such that stem_n-plus-extension does not exist and
moves the file to that name; entries already present in all/ keep their
contents. -/
theorem move_file_smallest (st : AllDir) (name : String) (content : Nat) (n fuel : Nat)
    (hfree : existsFile st (candidateName name (pyStem name) (pySuffix name) n) = false)
    (hmin : ∀ m, m < n → existsFile st (candidateName name (pyStem name) (pySuffix name) m) = true)
    (hfuel : n ≤ fuel) :
    move_file_to_all st name content fuel =
      some (candidateName name (pyStem name) (pySuffix name) n,
        (candidateName name (pyStem name) (pySuffix name) n, content) :: st) ∧
      ∀ k c, alookup st k = some c →
        alookup ((candidateName name (pyStem name) (pySuffix name) n, content) :: st) k = some c := by
  constructor
  · have h0 : candidateName name (pyStem name) (pySuffix name) 0 = name := by
      simp [candidateName]
    have := findTarget_eq_candidate st name (pyStem name) (pySuffix name) fuel 0 n
      (Nat.zero_le n) hfree (fun m _ hm2 => hmin m hm2) (by omega)
    rw [h0] at this
    simp only [move_file_to_all, this]
  · intro k c hk
    have hne : k ≠ candidateName name (pyStem name) (pySuffix name) n := by
      intro he
      rw [he] at hk
      simp [existsFile, hk] at hfree
    simp only [alookup, if_neg hne]
    exact hk

/-- Witness for C2 at the scenario of the spec: all/ contains test.txt,
test_1.txt and test_2.txt, and moving a new test.txt produces test_3.txt
while the three existing entries keep their contents. -/
theorem move_file_smallest_witness :
    move_file_to_all [("test.txt", 10), ("test_1.txt", 11), ("test_2.txt", 12)]
        "test.txt" 13 3 =
      some ("test_3.txt",
        [("test_3.txt", 13), ("test.txt", 10), ("test_1.txt", 11), ("test_2.txt", 12)]) ∧
      alookup [("test_3.txt", 13), ("test.txt", 10), ("test_1.txt", 11), ("test_2.txt", 12)]
        "test_1.txt" = some 11 := by
  have h := move_file_smallest [("test.txt", 10), ("test_1.txt", 11), ("test_2.txt", 12)]
    "test.txt" 13 3 3 (by decide) (by decide) (by decide)
  exact ⟨h.1, h.2 "test_1.txt" 11 (by decide)⟩

/-! ## FlowSort.create_category_symlink (src/flowsort.py lines 666-676)

Paths are modelled as lists of segments of an absolute, normalized path
(no dot or dot-dot segments), which is what FlowSort passes: both the real
file and the category directory live under the resolved base path. -/

/-- Length of the common leading segment run of two paths, as os.path.relpath
computes it before deciding how many dot-dot segments to emit. -/
def commonPrefixLen : List String → List String → Nat
  | a :: as, b :: bs => if a = b then commonPrefixLen as bs + 1 else 0
  | _, _ => 0

/-- os.path.relpath path start on segment lists: climb out of the non-common
part of start with dot-dot segments, then descend into the non-common part of
path; the empty relative path is the current-directory dot. -/
def relpathSegs (path start : List String) : List String :=
  let i := commonPrefixLen path start
  let rel := List.replicate (start.length - i) ".." ++ path.drop i
  if rel = [] then ["."] else rel

/-- Resolution of a relative segment list against a base directory, the way
the kernel resolves the stored symlink target: a dot-dot segment pops the last
base segment, a dot segment is skipped, any other segment descends. -/
def resolveRel (base rel : List String) : List String :=
  rel.foldl
    (fun acc s => if s = ".." then acc.dropLast else if s = "." then acc else acc ++ [s]) base

theorem commonPrefixLen_le : ∀ path start : List String,
    commonPrefixLen path start ≤ path.length ∧ commonPrefixLen path start ≤ start.length := by
  intro path
  induction path with
  | nil => intro start; cases start <;> simp [commonPrefixLen]
  | cons a as ih =>
    intro start
    cases start with
    | nil => simp [commonPrefixLen]
    | cons b bs =>
      by_cases hab : a = b
      · have := ih bs
        simp only [commonPrefixLen, if_pos hab, List.length_cons]
        omega
      · simp [commonPrefixLen, hab]

theorem take_commonPrefixLen_eq : ∀ path start : List String,
    start.take (commonPrefixLen path start) = path.take (commonPrefixLen path start) := by
  intro path
  induction path with
  | nil => intro start; cases start <;> simp [commonPrefixLen]
  | cons a as ih =>
    intro start
    cases start with
    | nil => simp [commonPrefixLen]
    | cons b bs =>
      by_cases hab : a = b
      · simp only [commonPrefixLen, if_pos hab, List.take_succ_cons]
        rw [ih bs, hab]
      · simp [commonPrefixLen, hab]

theorem resolveRel_replicate_up : ∀ (k : Nat) (base : List String), k ≤ base.length →
    resolveRel base (List.replicate k "..") = base.take (base.length - k) := by
  intro k
  induction k with
  | zero => intro base _; simp [resolveRel]
  | succ k ih =>
    intro base hk
    simp only [List.replicate_succ, resolveRel, List.foldl_cons, eq_self_iff_true, if_true]
    have hdl : base.dropLast = base.take (base.length - 1) := by
      rw [List.dropLast_eq_take]
    have hlen : base.dropLast.length = base.length - 1 := by
      simp [List.length_dropLast]
    have := ih base.dropLast (by omega)
    simp only [resolveRel] at this
    rw [this, hlen, hdl, List.take_take]
    congr 1
    omega

theorem resolveRel_plain_down : ∀ (l base : List String),
    (∀ s ∈ l, s ≠ ".." ∧ s ≠ ".") → resolveRel base l = base ++ l := by
  intro l
  induction l with
  | nil => intro base _; simp [resolveRel]
  | cons a as ih =>
    intro base h
    have ha := h a (by simp)
    simp only [resolveRel, List.foldl_cons, if_neg ha.1, if_neg ha.2]
    have := ih (base ++ [a]) (fun s hs => h s (by simp [hs]))
    simp only [resolveRel] at this
    rw [this]
    simp

theorem resolveRel_relpathSegs (path start : List String)
    (hpath : ∀ s ∈ path, s ≠ ".." ∧ s ≠ ".") :
    resolveRel start (relpathSegs path start) = path := by
  have hle := commonPrefixLen_le path start
  set i := commonPrefixLen path start with hi
  by_cases hempty : List.replicate (start.length - i) ".." ++ path.drop i = ([] : List String)
  · have h1 : start.length - i = 0 := by
      have := congrArg List.length hempty
      simp at this
      omega
    have h2 : path.drop i = [] := by
      have := congrArg List.length hempty
      simp at this
      have : path.length - i = 0 := by omega
      rw [← List.length_drop] at this
      exact List.length_eq_zero.mp this
    have hps : path = start := by
      have hpl : i = path.length := by
        have := congrArg List.length h2
        simp [List.length_drop] at this
        omega
      have hsl : i = start.length := by omega
      calc path = path.take i := by rw [hpl, List.take_length]
        _ = start.take i := (take_commonPrefixLen_eq path start).symm
        _ = start := by rw [hsl, List.take_length]
    simp only [relpathSegs, ← hi, hempty, if_pos rfl]
    rw [hps]
    simp [resolveRel]
  · simp only [relpathSegs, ← hi, if_neg hempty]
    rw [resolveRel]
    rw [List.foldl_append]
    have hup := resolveRel_replicate_up (start.length - i) start (by omega)
    simp only [resolveRel] at hup
    rw [hup]
    have htake : start.length - (start.length - i) = i := by omega
    rw [htake]
    have hdown := resolveRel_plain_down (path.drop i) (start.take i)
      (fun s hs => hpath s (List.drop_subset i path hs))
    simp only [resolveRel] at hdown
    rw [hdown, take_commonPrefixLen_eq path start, List.take_append_drop]

/-- Entry of a category directory: a real file or a symlink with its stored
target path. -/
inductive CatEntry where
  | real : CatEntry
  | link : List String → CatEntry
deriving DecidableEq

/-- Removal of every binding of a name from a directory listing, modelling
symlink_path.unlink() on an association list. -/
def removeEntry {β : Type} : List (String × β) → String → List (String × β)
  | [], _ => []
  | (q, v) :: rest, b => if q = b then removeEntry rest b else (q, v) :: removeEntry rest b

/-- FlowSort.create_category_symlink on the category directory listing: the
entry named after the real file basename is unlinked if present and replaced
by a symlink whose stored target is the relative path from the category
directory to the real file. -/
def create_category_symlink (dir : List (String × CatEntry)) (baseName : String)
    (realFile categoryDir : List String) : List (String × CatEntry) :=
  (baseName, CatEntry.link (relpathSegs realFile categoryDir)) :: removeEntry dir baseName

theorem alookup_removeEntry_ne {β : Type} (dir : List (String × β)) (b k : String)
    (h : k ≠ b) : alookup (removeEntry dir b) k = alookup dir k := by
  induction dir with
  | nil => rfl
  | cons hd tl ih =>
    cases hd with
    | mk q v =>
      by_cases hb : q = b
      · have hk : k ≠ q := by rw [hb]; exact h
        simp only [removeEntry, if_pos hb, alookup, if_neg hk]
        exact ih
      · simp only [removeEntry, if_neg hb, alookup]
        by_cases hkq : k = q
        · simp [hkq]
        · simp only [if_neg hkq]
          exact ih

/-- C3: create_category_symlink stores, under the basename of the real file, a
symlink whose target string is the relative path from the category directory
to the real file; that target resolves from the category directory back to the
real file; any pre-existing entry of that name is replaced (last write wins)
and all other entries are untouched. -/
theorem create_symlink_correct (dir : List (String × CatEntry)) (baseName : String)
    (realFile categoryDir : List String)
    (hpath : ∀ s ∈ realFile, s ≠ ".." ∧ s ≠ ".") :
    alookup (create_category_symlink dir baseName realFile categoryDir) baseName =
        some (CatEntry.link (relpathSegs realFile categoryDir)) ∧
      resolveRel categoryDir (relpathSegs realFile categoryDir) = realFile ∧
      ∀ k, k ≠ baseName →
        alookup (create_category_symlink dir baseName realFile categoryDir) k =
          alookup dir k := by
  refine ⟨?_, resolveRel_relpathSegs realFile categoryDir hpath, ?_⟩
  · simp [create_category_symlink, alookup]
  · intro k hk
    simp only [create_category_symlink, alookup, if_neg hk]
    exact alookup_removeEntry_ne dir baseName k hk

/-- Witness for C3 at the scenario of the spec: linking all/doc.pdf into
documents/ stores the relative target dot-dot, all, doc.pdf, and resolving it
from documents/ yields the real file again. -/
theorem create_symlink_correct_witness :
    alookup (create_category_symlink [("doc.pdf", CatEntry.real)] "doc.pdf"
        ["home", "u", "INBOX", "all", "doc.pdf"] ["home", "u", "INBOX", "documents"])
        "doc.pdf" = some (CatEntry.link ["..", "all", "doc.pdf"]) ∧
      resolveRel ["home", "u", "INBOX", "documents"] ["..", "all", "doc.pdf"] =
        ["home", "u", "INBOX", "all", "doc.pdf"] := by
  have h := create_symlink_correct [("doc.pdf", CatEntry.real)] "doc.pdf"
    ["home", "u", "INBOX", "all", "doc.pdf"] ["home", "u", "INBOX", "documents"]
    (by decide)
  have hrel : relpathSegs ["home", "u", "INBOX", "all", "doc.pdf"]
      ["home", "u", "INBOX", "documents"] = ["..", "all", "doc.pdf"] := by decide
  refine ⟨?_, ?_⟩
  · rw [← hrel]; exact h.1
  · rw [← hrel]; exact h.2.1

/-! ## FlowSort.cleanup_broken_symlinks (src/flowsort.py lines 713-718) -/

/-- Kind of a filesystem node as the sweep observes it: a regular file, a
directory, or a symlink whose flag records that its target fails to resolve
(item.is_symlink() and not item.exists()). -/
inductive NodeKind where
  | file : NodeKind
  | directory : NodeKind
  | symlink : Bool → NodeKind
deriving DecidableEq

/-- A directory tree flattened the way Path.rglob visits it: every descendant
path (segments relative to the swept directory) paired with its kind. -/
abbrev FsListing := List (List String × NodeKind)

/-- Association-list lookup keyed by segment paths. -/
def plookup : FsListing → List String → Option NodeKind
  | [], _ => none
  | (p, k) :: rest, q => if q = p then some k else plookup rest q

/-- FlowSort.cleanup_broken_symlinks: the rglob pass unlinks every entry that
is a symlink and does not resolve, leaving everything else in place. -/
def cleanup_broken_symlinks (fs : FsListing) : FsListing :=
  fs.filter (fun e => e.2 ≠ NodeKind.symlink true)

theorem plookup_none_of_not_mem (fs : FsListing) (q : List String)
    (h : q ∉ fs.map Prod.fst) : plookup fs q = none := by
  induction fs with
  | nil => rfl
  | cons hd tl ih =>
    cases hd with
    | mk p k =>
      simp only [List.map_cons, List.mem_cons] at h
      push_neg at h
      simp only [plookup, if_neg h.1]
      exact ih h.2

/-- C4: the sweep deletes exactly the broken symlinks: looking up any path
after the sweep gives the original entry unless that entry was a symlink
whose target does not resolve, in which case it is gone. -/
theorem cleanup_exactly_broken (fs : FsListing) (p : List String)
    (hnd : (fs.map Prod.fst).Nodup) :
    plookup (cleanup_broken_symlinks fs) p =
      (plookup fs p).bind
        (fun k => if k = NodeKind.symlink true then none else some k) := by
  induction fs with
  | nil => rfl
  | cons hd tl ih =>
    obtain ⟨q, k⟩ := hd
    simp only [List.map_cons, List.nodup_cons] at hnd
    by_cases hbk : k = NodeKind.symlink true
    · subst hbk
      simp only [cleanup_broken_symlinks, List.filter_cons]
      rw [if_neg (by simp)]
      by_cases hpq : p = q
      · subst hpq
        simp only [plookup, if_pos rfl, Option.bind_some, if_pos rfl]
        have hsub : p ∉ (cleanup_broken_symlinks tl).map Prod.fst := by
          intro hmem
          apply hnd.1
          have : (cleanup_broken_symlinks tl).map Prod.fst ⊆ tl.map Prod.fst := by
            intro x hx
            simp only [List.mem_map] at hx ⊢
            obtain ⟨e, he, hxe⟩ := hx
            exact ⟨e, (List.mem_filter.mp he).1, hxe⟩
          exact this hmem
        exact plookup_none_of_not_mem _ p hsub
      · simp only [plookup, if_neg hpq]
        exact ih hnd.2
    · simp only [cleanup_broken_symlinks, List.filter_cons]
      rw [if_pos (by simp [hbk])]
      by_cases hpq : p = q
      · subst hpq
        simp [plookup, hbk]
      · simp only [plookup, if_neg hpq]
        exact ih hnd.2

/-- Witness for C4 at the scenario of the spec: a directory holding one
symlink to an existing file and one symlink to a deleted file; the sweep
removes only the second and keeps the first. -/
theorem cleanup_exactly_broken_witness :
    plookup (cleanup_broken_symlinks
        [(["documents", "a.pdf"], NodeKind.symlink false),
         (["documents", "b.pdf"], NodeKind.symlink true),
         (["all", "a.pdf"], NodeKind.file)]) ["documents", "a.pdf"] =
      some (NodeKind.symlink false) ∧
    plookup (cleanup_broken_symlinks
        [(["documents", "a.pdf"], NodeKind.symlink false),
         (["documents", "b.pdf"], NodeKind.symlink true),
         (["all", "a.pdf"], NodeKind.file)]) ["documents", "b.pdf"] = none := by
  have h1 := cleanup_exactly_broken
    [(["documents", "a.pdf"], NodeKind.symlink false),
     (["documents", "b.pdf"], NodeKind.symlink true),
     (["all", "a.pdf"], NodeKind.file)] ["documents", "a.pdf"] (by decide)
  have h2 := cleanup_exactly_broken
    [(["documents", "a.pdf"], NodeKind.symlink false),
     (["documents", "b.pdf"], NodeKind.symlink true),
     (["all", "a.pdf"], NodeKind.file)] ["documents", "b.pdf"] (by decide)
  refine ⟨?_, ?_⟩
  · rw [h1]; decide
  · rw [h2]; decide

/-! ## FlowSort.get_file_stats (src/flowsort.py lines 720-733) -/

/-- FlowSort.get_file_stats over a location root.  The root is modelled as a
function from subdirectory name to its number of direct entries, none when the
subdirectory does not exist.  total_files counts the direct entries of all/
when it exists; the categories table is filled in configuration order with one
binding per configured category whose directory exists, exactly like the
Python loop that only assigns stats for existing directories. -/
def get_file_stats (categories : List String) (root : String → Option Nat) :
    Nat × List (String × Nat) :=
  let total :=
    match root "all" with
    | some n => n
    | none => 0
  let table := categories.foldl
    (fun acc c =>
      match root c with
      | some n => acc ++ [(c, n)]
      | none => acc) []
  (total, table)

theorem stats_table_eq (root : String → Option Nat) :
    ∀ (cats : List String) (acc : List (String × Nat)),
      cats.foldl
        (fun acc c =>
          match root c with
          | some n => acc ++ [(c, n)]
          | none => acc) acc =
      acc ++ cats.filterMap (fun c => (root c).map (fun n => (c, n))) := by
  intro cats
  induction cats with
  | nil => intro acc; simp
  | cons a as ih =>
    intro acc
    simp only [List.foldl_cons, List.filterMap_cons]
    cases hra : root a with
    | none => simp only [Option.map_none', ih]
    | some n =>
      simp only [Option.map_some', ih, List.append_assoc, List.singleton_append]

theorem alookup_stats_filterMap (root : String → Option Nat) :
    ∀ cats : List String, cats.Nodup → ∀ c,
      alookup (cats.filterMap (fun c2 => (root c2).map (fun n => (c2, n)))) c =
        (if c ∈ cats then root c else none) := by
  intro cats
  induction cats with
  | nil => intro _ c; simp [alookup]
  | cons a as ih =>
    intro hnd c
    simp only [List.nodup_cons] at hnd
    by_cases hca : c = a
    · subst hca
      cases hra : root c with
      | none =>
        simp only [List.filterMap_cons, hra, Option.map_none']
        rw [ih hnd.2 c]
        simp [hnd.1, hra]
      | some n =>
        simp [List.filterMap_cons, hra, alookup]
    · cases hra : root a with
      | none =>
        simp only [List.filterMap_cons, hra, Option.map_none']
        rw [ih hnd.2 c]
        simp [hca]
      | some n =>
        simp only [List.filterMap_cons, hra, Option.map_some']
        simp only [alookup, if_neg hca]
        rw [ih hnd.2 c]
        simp [hca]

/-- Counterexample for C6: on a root whose all/ directory holds two entries
but whose documents/ directory does not exist (the ARCHIVE layout, which has
no category directories), get_file_stats omits the documents key from the
per-category map instead of reporting 0. -/
theorem get_file_stats_missing_dir_counterexample :
    alookup (get_file_stats ["documents"]
        (fun s => if s = "all" then some 2 else none)).2 "documents" = none := rfl

/-- C6 amended: total_files is the number of direct entries of directory/all
(0 when all/ is missing), and the per-category map binds exactly those
configured categories whose directory exists to their direct entry counts;
a configured category whose directory is missing is omitted from the map
rather than reported as 0, and the catch-all misc is counted only when it is
itself a configured category. -/
theorem get_file_stats_spec (categories : List String) (root : String → Option Nat)
    (hnd : categories.Nodup) :
    (get_file_stats categories root).1 = (root "all").getD 0 ∧
      ∀ c, alookup (get_file_stats categories root).2 c =
        (if c ∈ categories then root c else none) := by
  constructor
  · simp only [get_file_stats]
    cases root "all" <;> simp
  · intro c
    simp only [get_file_stats]
    rw [stats_table_eq root categories []]
    simp only [List.nil_append]
    exact alookup_stats_filterMap root categories hnd c

/-- Witness for C6 (amended) at the scenario of the spec: three files in all/,
one symlink each in documents/ and images/, misc/ configured and empty,
and a configured but missing spreadsheets/ directory that is omitted. -/
theorem get_file_stats_spec_witness :
    (get_file_stats ["documents", "images", "misc", "spreadsheets"]
        (fun s => if s = "all" then some 3 else if s = "documents" then some 1
          else if s = "images" then some 1 else if s = "misc" then some 1 else none)).1 = 3 ∧
      alookup (get_file_stats ["documents", "images", "misc", "spreadsheets"]
        (fun s => if s = "all" then some 3 else if s = "documents" then some 1
          else if s = "images" then some 1 else if s = "misc" then some 1 else none)).2
        "documents" = some 1 ∧
      alookup (get_file_stats ["documents", "images", "misc", "spreadsheets"]
        (fun s => if s = "all" then some 3 else if s = "documents" then some 1
          else if s = "images" then some 1 else if s = "misc" then some 1 else none)).2
        "spreadsheets" = none := by
  have h := get_file_stats_spec ["documents", "images", "misc", "spreadsheets"]
    (fun s => if s = "all" then some 3 else if s = "documents" then some 1
      else if s = "images" then some 1 else if s = "misc" then some 1 else none)
    (by decide)
  refine ⟨h.1, ?_, ?_⟩
  · rw [h.2 "documents"]; rfl
  · rw [h.2 "spreadsheets"]; rfl

/-! ## XattrTagManager reads (src/flowsort.py lines 203-232) -/

/-- Outcome classes of an os.getxattr call: errno 61 (ENODATA, the attribute
does not exist) versus any other OSError errno. -/
inductive XErr where
  | enodata : XErr
  | other : Nat → XErr
deriving DecidableEq

namespace XattrTagManager

/-- XattrTagManager.get_category, as a function of the raw getxattr outcome:
a successful read returns the decoded value; both the ENODATA case and every
other OSError return None (the non-ENODATA branch additionally prints a debug
line, which does not change the returned value). -/
def get_category (enabled : Bool) (read : Except XErr String) : Option String :=
  if enabled = false then none
  else
    match read with
    | Except.ok v => some v
    | Except.error _ => none

/-- XattrTagManager.get_confidence: like get_category but parsing the stored
value as a float; a failed parse (ValueError) also returns None.  The Python
float parser is passed as an oracle. -/
def get_confidence (enabled : Bool) (read : Except XErr String)
    (parseFloat : String → Option ℚ) : Option ℚ :=
  if enabled = false then none
  else
    match read with
    | Except.ok v => parseFloat v
    | Except.error _ => none

end XattrTagManager

/-- Counterexample for C7: a read failing with a non-ENODATA errno (13,
permission denied) returns the very same None as a read failing because the
attribute is absent, so the caller cannot distinguish the error from absence
in the returned value. -/
theorem get_category_error_indistinguishable :
    XattrTagManager.get_category true (Except.error (XErr.other 13)) =
      XattrTagManager.get_category true (Except.error XErr.enodata) := rfl

/-- C7 amended: get_category and get_confidence return the stored value on a
successful read and None on every OSError, whether the attribute is absent
(ENODATA) or the read failed for another reason such as permission denied;
the other failures are only logged to the console, not reported to the caller
as an error distinguishable from absence. -/
theorem tag_reads_return_none_on_error :
    (∀ e, XattrTagManager.get_category true (Except.error e) = none) ∧
    (∀ v, XattrTagManager.get_category true (Except.ok v) = some v) ∧
    (∀ e p, XattrTagManager.get_confidence true (Except.error e) p = none) ∧
    (∀ v p, XattrTagManager.get_confidence true (Except.ok v) p = p v) :=
  ⟨fun _ => rfl, fun _ => rfl, fun _ _ => rfl, fun _ _ => rfl⟩

/-! ## FlowSort.collect_downloads (src/flowsort.py lines 678-711) -/

theorem alookup_isSome_mem_keys {β : Type} (st : List (String × β)) (k : String)
    (h : (alookup st k).isSome = true) : k ∈ st.map Prod.fst := by
  induction st with
  | nil => simp [alookup] at h
  | cons hd tl ih =>
    obtain ⟨q, v⟩ := hd
    by_cases hk : k = q
    · simp [hk]
    · simp only [alookup, if_neg hk] at h
      simp [ih h]

/-- Pigeonhole for the conflict loop: among the first length-plus-one conflict
counters, at least one name is not taken, because the conflict names are
pairwise distinct and the directory holds only length many names. -/
theorem exists_free_conflict (st : AllDir) (stem ext : String) :
    ∃ j, j < st.length + 1 ∧ existsFile st (conflictName stem ext (1 + j)) = false := by
  by_contra hcon
  push_neg at hcon
  have htaken : ∀ j, j < st.length + 1 → existsFile st (conflictName stem ext (1 + j)) = true := by
    intro j hj
    have := hcon j hj
    revert this
    cases existsFile st (conflictName stem ext (1 + j)) <;> simp
  have hinj : Function.Injective (fun j : Nat => conflictName stem ext (1 + j)) := by
    intro a b hab
    have := conflictName_injective stem ext hab
    omega
  have hnd : ((List.range (st.length + 1)).map
      (fun j => conflictName stem ext (1 + j))).Nodup :=
    (List.nodup_range _).map hinj
  have hsub : ∀ x ∈ (List.range (st.length + 1)).map (fun j => conflictName stem ext (1 + j)),
      x ∈ st.map Prod.fst := by
    intro x hx
    simp only [List.mem_map, List.mem_range] at hx
    obtain ⟨j, hj, hxe⟩ := hx
    subst hxe
    exact alookup_isSome_mem_keys st _ (htaken j hj)
  have hcard1 : ((List.range (st.length + 1)).map
      (fun j => conflictName stem ext (1 + j))).toFinset.card = st.length + 1 := by
    rw [List.toFinset_card_of_nodup hnd]
    simp
  have hcard2 : ((List.range (st.length + 1)).map
      (fun j => conflictName stem ext (1 + j))).toFinset.card ≤ (st.map Prod.fst).length := by
    calc _ ≤ (st.map Prod.fst).toFinset.card := by
          apply Finset.card_le_card
          intro x hx
          rw [List.mem_toFinset] at hx ⊢
          exact hsub x hx
      _ ≤ (st.map Prod.fst).length := List.toFinset_card_le _
  rw [hcard1] at hcard2
  simp only [List.length_map] at hcard2
  omega

theorem findTarget_isSome (st : AllDir) (stem ext : String) :
    ∀ (fuel : Nat) (t : String) (k : Nat),
      (existsFile st t = false ∨
        ∃ j, j < fuel ∧ existsFile st (conflictName stem ext (k + j)) = false) →
      (findTarget st stem ext t k fuel).isSome = true := by
  intro fuel
  induction fuel with
  | zero =>
    intro t k h
    rcases h with h | ⟨j, hj, _⟩
    · simp [findTarget, h]
    · omega
  | succ f ih =>
    intro t k h
    by_cases ht : existsFile st t = true
    · simp only [findTarget, ht, if_true]
      apply ih
      rcases h with h | ⟨j, hj, hfree⟩
      · rw [ht] at h; cases h
      · cases j with
        | zero => left; simpa using hfree
        | succ j2 =>
          right
          refine ⟨j2, by omega, ?_⟩
          have : k + 1 + j2 = k + (j2 + 1) := by omega
          rw [this]
          exact hfree
    · have ht2 : existsFile st t = false := by
        cases hh : existsFile st t
        · rfl
        · exact absurd hh ht
      simp [findTarget, ht2]

theorem move_file_to_all_isSome (st : AllDir) (name : String) (content : Nat) :
    (move_file_to_all st name content (st.length + 1)).isSome = true := by
  obtain ⟨j, hj, hfree⟩ := exists_free_conflict st (pyStem name) (pySuffix name)
  have h := findTarget_isSome st (pyStem name) (pySuffix name) (st.length + 1) name 1
    (Or.inr ⟨j, hj, hfree⟩)
  simp only [move_file_to_all]
  cases hft : findTarget st (pyStem name) (pySuffix name) name 1 (st.length + 1) with
  | none => rw [hft] at h; simp at h
  | some target => simp

theorem move_file_to_all_shape (st : AllDir) (name : String) (content : Nat)
    (fuel : Nat) (t : String) (st2 : AllDir)
    (h : move_file_to_all st name content fuel = some (t, st2)) :
    st2 = (t, content) :: st := by
  simp only [move_file_to_all] at h
  cases hft : findTarget st (pyStem name) (pySuffix name) name 1 fuel with
  | none => rw [hft] at h; cases h
  | some target =>
    rw [hft] at h
    injection h with h2
    injection h2 with ha hb
    rw [← hb, ha]

/-- A direct entry of the downloads directory as the collector observes it:
its name, its content identity, and the result of file_path.is_file(). -/
structure DlEntry where
  name : String
  content : Nat
  is_file : Bool

/-- State threaded through the collector loop: the count of processed files,
the all/ listing of the inbox, the category symlinks created so far (category
and link name) and the tags applied so far (file name and category). -/
structure CollectState where
  count : Nat
  allDir : AllDir
  links : List (String × String)
  tags : List (String × String)

/-- Loop body of FlowSort.collect_downloads for one directory entry: a
regular file is moved into all/ (with fuel that always suffices, by
move_file_to_all_isSome), classified with the MIME oracle on the moved name,
linked into its category directory, and tagged when tagging and auto-tagging
are both enabled; any other entry is skipped. -/
def collect_step (cats : List (String × List String)) (mime : String → Option String)
    (tagging auto_tag : Bool) (s : CollectState) (e : DlEntry) : Option CollectState :=
  if e.is_file then
    match move_file_to_all s.allDir e.name e.content (s.allDir.length + 1) with
    | none => none
    | some (target, st2) =>
      let category := classify_file cats (mime target) target
      some { count := s.count + 1, allDir := st2,
             links := s.links ++ [(category, target)],
             tags := if tagging && auto_tag then s.tags ++ [(target, category)] else s.tags }
  else some s

/-- FlowSort.collect_downloads: returns 0 at once when the downloads source
directory does not exist (downloads is none); otherwise folds the loop body
over the direct entries of the directory.  The INBOX path is assumed
configured (otherwise the Python code raises before the loop). -/
def collect_downloads (cats : List (String × List String)) (mime : String → Option String)
    (tagging auto_tag : Bool) (downloads : Option (List DlEntry)) (inboxAll : AllDir) :
    Option CollectState :=
  match downloads with
  | none => some { count := 0, allDir := inboxAll, links := [], tags := [] }
  | some entries =>
    entries.foldl
      (fun acc e =>
        match acc with
        | none => none
        | some s => collect_step cats mime tagging auto_tag s e)
      (some { count := 0, allDir := inboxAll, links := [], tags := [] })

theorem collect_fold_spec (cats : List (String × List String))
    (mime : String → Option String) (tagging auto_tag : Bool) :
    ∀ (entries : List DlEntry) (s0 : CollectState), ∃ s : CollectState,
      entries.foldl
        (fun acc e =>
          match acc with
          | none => none
          | some s => collect_step cats mime tagging auto_tag s e)
        (some s0) = some s ∧
      s.count = s0.count + (entries.filter (fun e => e.is_file)).length ∧
      List.Perm (s.allDir.map Prod.snd)
        (s0.allDir.map Prod.snd ++ (entries.filter (fun e => e.is_file)).map DlEntry.content) := by
  intro entries
  induction entries with
  | nil =>
    intro s0
    exact ⟨s0, rfl, by simp, by simp⟩
  | cons e es ih =>
    intro s0
    by_cases hf : e.is_file = true
    · have hmv := move_file_to_all_isSome s0.allDir e.name e.content
      cases hmv2 : move_file_to_all s0.allDir e.name e.content (s0.allDir.length + 1) with
      | none => rw [hmv2] at hmv; simp at hmv
      | some pr =>
        obtain ⟨target, st2⟩ := pr
        have hshape := move_file_to_all_shape s0.allDir e.name e.content _ target st2 hmv2
        set s1 : CollectState :=
          { count := s0.count + 1, allDir := st2,
            links := s0.links ++ [(classify_file cats (mime target) target, target)],
            tags := if tagging && auto_tag then
                s0.tags ++ [(target, classify_file cats (mime target) target)]
              else s0.tags } with hs1
        obtain ⟨s, hfold, hcount, hmul⟩ := ih s1
        refine ⟨s, ?_, ?_, ?_⟩
        · simp only [List.foldl_cons, collect_step, hf, if_true, hmv2]
          exact hfold
        · rw [hcount, hs1]
          simp [hf]
          omega
        · have hfil : (e :: es).filter (fun e2 => e2.is_file) =
              e :: es.filter (fun e2 => e2.is_file) := by
            simp [List.filter_cons, hf]
          rw [hfil, List.map_cons]
          refine hmul.trans ?_
          have hall : s1.allDir.map Prod.snd = e.content :: s0.allDir.map Prod.snd := by
            rw [hs1]
            simp [hshape]
          rw [hall, List.cons_append]
          exact List.perm_middle.symm
    · have hf2 : e.is_file = false := by
        cases hh : e.is_file
        · rfl
        · exact absurd hh hf
      obtain ⟨s, hfold, hcount, hmul⟩ := ih s0
      refine ⟨s, ?_, ?_, ?_⟩
      · simp only [List.foldl_cons, collect_step, hf2, Bool.false_eq_true, if_false]
        exact hfold
      · rw [hcount]
        simp [hf2]
      · have hfil : (e :: es).filter (fun e2 => e2.is_file) =
            es.filter (fun e2 => e2.is_file) := by
          simp [List.filter_cons, hf2]
        rw [hfil]
        exact hmul

/-- C8: collect_downloads returns 0 when the downloads directory is absent,
and otherwise returns the number of regular-file entries: directory and other
non-regular entries are skipped without error, excluded from the count, and
their contents are never moved into all/ (the all/ contents after the run are
exactly the old ones plus the contents of the regular files). -/
theorem collect_downloads_spec (cats : List (String × List String))
    (mime : String → Option String) (tagging auto_tag : Bool) :
    (∀ inboxAll : AllDir,
      collect_downloads cats mime tagging auto_tag none inboxAll =
        some { count := 0, allDir := inboxAll, links := [], tags := [] }) ∧
    (∀ (entries : List DlEntry) (inboxAll : AllDir), ∃ s : CollectState,
      collect_downloads cats mime tagging auto_tag (some entries) inboxAll = some s ∧
      s.count = (entries.filter (fun e => e.is_file)).length ∧
      List.Perm (s.allDir.map Prod.snd)
        (inboxAll.map Prod.snd ++ (entries.filter (fun e => e.is_file)).map DlEntry.content)) := by
  constructor
  · intro inboxAll
    rfl
  · intro entries inboxAll
    obtain ⟨s, hfold, hcount, hmul⟩ := collect_fold_spec cats mime tagging auto_tag entries
      { count := 0, allDir := inboxAll, links := [], tags := [] }
    exact ⟨s, hfold, by simpa using hcount, by simpa using hmul⟩

/-! ## Lexicographic string order, modelling Python sorted on strings -/

/-- Strict lexicographic comparison of character lists by code point, the
order Python sorted uses on strings. -/
def ltChars : List Char → List Char → Bool
  | [], [] => false
  | [], _ :: _ => true
  | _ :: _, [] => false
  | a :: as, b :: bs => if a < b then true else if b < a then false else ltChars as bs

theorem ltChars_irrefl : ∀ l, ltChars l l = false := by
  intro l
  induction l with
  | nil => rfl
  | cons a as ih => simp [ltChars, lt_irrefl, ih]

theorem ltChars_trans : ∀ a b c, ltChars a b = true → ltChars b c = true →
    ltChars a c = true := by
  intro a
  induction a with
  | nil =>
    intro b c hab hbc
    cases b with
    | nil => simp [ltChars] at hab
    | cons y ys =>
      cases c with
      | nil => simp [ltChars] at hbc
      | cons z zs => rfl
  | cons x xs ih =>
    intro b c hab hbc
    cases b with
    | nil => simp [ltChars] at hab
    | cons y ys =>
      cases c with
      | nil => simp [ltChars] at hbc
      | cons z zs =>
        simp only [ltChars] at hab hbc ⊢
        by_cases hxy : x < y
        · by_cases hyz : y < z
          · simp [lt_trans hxy hyz]
          · by_cases hzy : z < y
            · simp [hyz, hzy] at hbc
            · have hyz2 : y = z := le_antisymm (not_lt.mp hzy) (not_lt.mp hyz)
              subst hyz2
              simp [hxy]
        · by_cases hyx : y < x
          · simp [hxy, hyx] at hab
          · have hxy2 : x = y := le_antisymm (not_lt.mp hyx) (not_lt.mp hxy)
            subst hxy2
            simp only [if_neg hxy, if_neg hyx] at hab
            by_cases hxz : x < z
            · simp [hxz]
            · by_cases hzx : z < x
              · simp [hxz, hzx] at hbc
              · simp only [if_neg hxz, if_neg hzx] at hbc ⊢
                exact ih ys zs hab hbc

theorem ltChars_trichotomy : ∀ a b, ltChars a b = true ∨ a = b ∨ ltChars b a = true := by
  intro a
  induction a with
  | nil =>
    intro b
    cases b with
    | nil => right; left; rfl
    | cons y ys => left; rfl
  | cons x xs ih =>
    intro b
    cases b with
    | nil => right; right; rfl
    | cons y ys =>
      rcases lt_trichotomy x y with h | h | h
      · left; simp [ltChars, h]
      · subst h
        rcases ih ys with h2 | h2 | h2
        · left; simp [ltChars, lt_irrefl, h2]
        · right; left; rw [h2]
        · right; right; simp [ltChars, lt_irrefl, h2]
      · right; right; simp [ltChars, h]

theorem ltChars_asymm : ∀ a b, ltChars a b = true → ltChars b a = false := by
  intro a b h
  cases hba : ltChars b a
  · rfl
  · have := ltChars_trans a b a h hba
    rw [ltChars_irrefl] at this
    cases this

/-- Non-strict lexicographic order on strings used to model Python sorted. -/
def leStr (a b : String) : Bool := !(ltChars b.data a.data)

theorem leStr_total (a b : String) : leStr a b = true ∨ leStr b a = true := by
  simp only [leStr, Bool.not_eq_true']
  rcases ltChars_trichotomy b.data a.data with h | h | h
  · right; exact ltChars_asymm b.data a.data h
  · left; rw [h]; exact ltChars_irrefl a.data
  · left; exact ltChars_asymm a.data b.data h

theorem leStr_trans (a b c : String) (hab : leStr a b = true) (hbc : leStr b c = true) :
    leStr a c = true := by
  simp only [leStr, Bool.not_eq_true'] at hab hbc ⊢
  cases hca : ltChars c.data a.data
  · rfl
  · exfalso
    rcases ltChars_trichotomy b.data a.data with h | h | h
    · rw [h] at hab; cases hab
    · rw [h] at hbc; rw [hca] at hbc; cases hbc
    · have := ltChars_trans c.data a.data b.data hca h
      rw [this] at hbc; cases hbc

/-- Insertion into a sorted list of strings. -/
def insertSorted (x : String) : List String → List String
  | [] => [x]
  | y :: ys => if leStr x y then x :: y :: ys else y :: insertSorted x ys

/-- Python sorted on a list of strings: equal strings are indistinguishable,
so any sorting algorithm produces the same list; insertion sort is used for
its structural recursion. -/
def sortStrings (l : List String) : List String := l.foldr insertSorted []

theorem mem_insertSorted (x : String) : ∀ (l : List String) (a : String),
    a ∈ insertSorted x l ↔ a = x ∨ a ∈ l := by
  intro l
  induction l with
  | nil => intro a; simp [insertSorted]
  | cons y ys ih =>
    intro a
    by_cases h : leStr x y = true
    · simp only [insertSorted, if_pos h, List.mem_cons]
    · simp only [insertSorted, if_neg h, List.mem_cons, ih]
      tauto

theorem mem_sortStrings (l : List String) (a : String) : a ∈ sortStrings l ↔ a ∈ l := by
  induction l with
  | nil => simp [sortStrings]
  | cons x xs ih =>
    simp only [sortStrings, List.foldr_cons] at ih ⊢
    rw [mem_insertSorted, ih, List.mem_cons]

theorem sorted_insertSorted (x : String) : ∀ l : List String,
    List.Pairwise (fun a b => leStr a b = true) l →
    List.Pairwise (fun a b => leStr a b = true) (insertSorted x l) := by
  intro l
  induction l with
  | nil => intro _; simp [insertSorted]
  | cons y ys ih =>
    intro hp
    rw [List.pairwise_cons] at hp
    by_cases h : leStr x y = true
    · simp only [insertSorted, if_pos h]
      rw [List.pairwise_cons]
      constructor
      · intro b hb
        rcases List.mem_cons.mp hb with hb | hb
        · rw [hb]; exact h
        · exact leStr_trans x y b h (hp.1 b hb)
      · rw [List.pairwise_cons]
        exact hp
    · simp only [insertSorted, if_neg h]
      rw [List.pairwise_cons]
      constructor
      · intro b hb
        rcases (mem_insertSorted x ys b).mp hb with hb | hb
        · rw [hb]
          rcases leStr_total x y with ht | ht
          · exact absurd ht h
          · exact ht
        · exact hp.1 b hb
      · exact ih hp.2

theorem sorted_sortStrings (l : List String) :
    List.Pairwise (fun a b => leStr a b = true) (sortStrings l) := by
  induction l with
  | nil => simp [sortStrings]
  | cons x xs ih => exact sorted_insertSorted x (sortStrings xs) ih

/-! ## XattrTagManager writes (src/flowsort.py lines 172-201 and 353-374) -/

/-- Xattr store of one file: attribute name to stored string value. -/
abbrev Xattrs := List (String × String)

/-- Tagging-related configuration fields of Config. -/
structure TagConfig where
  enable_tagging : Bool
  xdg_tags_compatibility : Bool
  auto_tag_categories : Bool
  prefer_xdg_tags : Bool
  preserve_existing_tags : Bool
  tag_namespace : String

/-- The FlowSort category attribute name, tag_namespace plus .category. -/
def categoryAttr (cfg : TagConfig) : String := cfg.tag_namespace ++ ".category"

/-- The FlowSort tags attribute name, tag_namespace plus .tags. -/
def tagsAttr (cfg : TagConfig) : String := cfg.tag_namespace ++ ".tags"

/-- The FlowSort confidence attribute name, tag_namespace plus .confidence. -/
def confidenceAttr (cfg : TagConfig) : String := cfg.tag_namespace ++ ".confidence"

/-- The shared XDG tag attribute user.xdg.tags. -/
def xdgTagsAttr : String := "user.xdg.tags"

theorem flowsortAttrs_distinct (cfg : TagConfig) :
    categoryAttr cfg ≠ tagsAttr cfg ∧ categoryAttr cfg ≠ confidenceAttr cfg ∧
      tagsAttr cfg ≠ confidenceAttr cfg := by
  refine ⟨?_, ?_, ?_⟩ <;>
    · intro h
      have hdata := congrArg String.data h
      simp only [String.data_append] at hdata
      have h2 := List.append_cancel_left hdata
      exact absurd h2 (by decide)

/-- os.setxattr on the attribute store, with an explicit set of attribute
names whose writes the filesystem rejects with OSError. -/
def setxattr (fails : List String) (st : Xattrs) (k v : String) : Option Xattrs :=
  if k ∈ fails then none else some ((k, v) :: removeEntry st k)

/-- os.removexattr on the attribute store: fails with OSError (ENODATA) when
the attribute is absent. -/
def removexattr (st : Xattrs) (k : String) : Option Xattrs :=
  match alookup st k with
  | some _ => some (removeEntry st k)
  | none => none

/-- Parsing a stored comma-separated tag list: split on commas, strip each
piece, drop empties (the list comprehension of _get_xdg_tags). -/
def parseTags (s : String) : List String :=
  ((splitComma s).map trimStr).filter (fun t => t ≠ "")

/-- XattrTagManager._get_xdg_tags: None when XDG compatibility is off or the
attribute is absent, otherwise the parsed tag list. -/
def get_xdg_tags (cfg : TagConfig) (st : Xattrs) : Option (List String) :=
  if cfg.xdg_tags_compatibility = false then none
  else
    match alookup st xdgTagsAttr with
    | some s => some (parseTags s)
    | none => none

/-- The XDG mirror block of set_category (the inner try block): when XDG
compatibility and automatic category tagging are both enabled, the category is
appended to the existing XDG tag list unless already present and the sorted
list is written back; a failing write is swallowed. -/
def set_category_mirror (cfg : TagConfig) (fails : List String) (st : Xattrs)
    (category : String) : Xattrs :=
  if cfg.xdg_tags_compatibility && cfg.auto_tag_categories then
    if category ∈ (get_xdg_tags cfg st).getD [] then st
    else
      match setxattr fails st xdgTagsAttr
          (joinComma (sortStrings ((get_xdg_tags cfg st).getD [] ++ [category]))) with
      | some st2 => st2
      | none => st
  else st

/-- XattrTagManager.set_category: writes the category attribute and, when
given, the confidence attribute (its value already rendered to a string by
str); a rejected write returns False with the writes already performed kept
(the except block returns after partial mutation); otherwise, the XDG mirror
block runs and True is returned. -/
def set_category (cfg : TagConfig) (enabled : Bool) (fails : List String)
    (st : Xattrs) (category : String) (confidence : Option String) : Bool × Xattrs :=
  if enabled = false then (false, st)
  else
    match setxattr fails st (categoryAttr cfg) category with
    | none => (false, st)
    | some st1 =>
      match confidence with
      | some cs =>
        match setxattr fails st1 (confidenceAttr cfg) cs with
        | none => (false, st1)
        | some st2 => (true, set_category_mirror cfg fails st2 category)
      | none => (true, set_category_mirror cfg fails st1 category)

/-- One removal step of clear_all_tags: a failing removexattr (in particular
of an absent attribute) flips the success flag to False and leaves the store
unchanged. -/
def clearStep (acc : Bool × Xattrs) (attr : String) : Bool × Xattrs :=
  match removexattr acc.2 attr with
  | some st2 => (acc.1, st2)
  | none => (false, acc.2)

/-- The XDG removal block of clear_all_tags: when compatibility is enabled the
XDG tag attribute is removed too, but failures of this removal are swallowed
and do not flip the success flag. -/
def clearXdg (cfg : TagConfig) (r : Bool × Xattrs) : Bool × Xattrs :=
  if cfg.xdg_tags_compatibility then
    match removexattr r.2 xdgTagsAttr with
    | some st2 => (r.1, st2)
    | none => r
  else r

/-- XattrTagManager.clear_all_tags: removes the category, tags and confidence
attributes in order, recording failure if any removal raises; then removes the
XDG tag attribute when compatibility is enabled, ignoring failures there. -/
def clear_all_tags (cfg : TagConfig) (enabled : Bool) (st : Xattrs) : Bool × Xattrs :=
  if enabled = false then (false, st)
  else
    clearXdg cfg
      ([categoryAttr cfg, tagsAttr cfg, confidenceAttr cfg].foldl clearStep (true, st))

theorem alookup_removeEntry_self {β : Type} (st : List (String × β)) (k : String) :
    alookup (removeEntry st k) k = none := by
  induction st with
  | nil => rfl
  | cons hd tl ih =>
    obtain ⟨q, v⟩ := hd
    by_cases hq : q = k
    · simp only [removeEntry, if_pos hq]
      exact ih
    · simp only [removeEntry, if_neg hq, alookup]
      rw [if_neg (fun hkq => hq hkq.symm)]
      exact ih

theorem alookup_removeEntry_none {β : Type} (st : List (String × β)) (j k : String)
    (h : alookup st k = none) : alookup (removeEntry st j) k = none := by
  by_cases hkj : k = j
  · subst hkj
    exact alookup_removeEntry_self st k
  · rw [alookup_removeEntry_ne st j k hkj]
    exact h

theorem setxattr_not_fails (fails : List String) (st : Xattrs) (k v : String)
    (h : k ∉ fails) :
    setxattr fails st k v = some ((k, v) :: removeEntry st k) := by
  simp [setxattr, h]

theorem get_xdg_tags_congr (cfg : TagConfig) {st1 st2 : Xattrs}
    (h : alookup st1 xdgTagsAttr = alookup st2 xdgTagsAttr) :
    get_xdg_tags cfg st1 = get_xdg_tags cfg st2 := by
  unfold get_xdg_tags
  rw [h]

theorem set_category_mirror_alookup_ne (cfg : TagConfig) (fails : List String)
    (st : Xattrs) (category j : String) (hj : j ≠ xdgTagsAttr) :
    alookup (set_category_mirror cfg fails st category) j = alookup st j := by
  by_cases hc : (cfg.xdg_tags_compatibility && cfg.auto_tag_categories) = true
  · by_cases hm : category ∈ (get_xdg_tags cfg st).getD []
    · simp [set_category_mirror, hc, hm]
    · by_cases hxf : xdgTagsAttr ∈ fails
      · simp [set_category_mirror, hc, hm, setxattr, hxf]
      · rw [set_category_mirror, if_pos hc, if_neg hm,
          setxattr_not_fails fails st xdgTagsAttr _ hxf]
        simp only [alookup, if_neg hj]
        exact alookup_removeEntry_ne st xdgTagsAttr j hj
  · simp [set_category_mirror, hc]

theorem set_category_mirror_of_mem (cfg : TagConfig) (fails : List String)
    (st : Xattrs) (category : String)
    (hc : (cfg.xdg_tags_compatibility && cfg.auto_tag_categories) = true)
    (hm : category ∈ (get_xdg_tags cfg st).getD []) :
    set_category_mirror cfg fails st category = st := by
  simp [set_category_mirror, hc, hm]

theorem set_category_mirror_of_not_mem (cfg : TagConfig) (fails : List String)
    (st : Xattrs) (category : String)
    (hc : (cfg.xdg_tags_compatibility && cfg.auto_tag_categories) = true)
    (hm : category ∉ (get_xdg_tags cfg st).getD []) (hxf : xdgTagsAttr ∉ fails) :
    set_category_mirror cfg fails st category =
      (xdgTagsAttr, joinComma (sortStrings ((get_xdg_tags cfg st).getD [] ++ [category]))) ::
        removeEntry st xdgTagsAttr := by
  rw [set_category_mirror, if_pos hc, if_neg hm,
    setxattr_not_fails fails st xdgTagsAttr _ hxf]

/-- Counterexample for C9: with compatibility-mirroring enabled
(xdg_tags_compatibility true) but automatic category tagging disabled,
set_category succeeds yet appends nothing to the mirrored XDG tag list, so
enabled mirroring alone does not imply the mirror write that the claim
asserts. -/
theorem set_category_no_mirror_counterexample :
    (set_category ⟨true, true, false, true, true, "user.flowsort"⟩ true [] []
        "documents" none).1 = true ∧
      alookup (set_category ⟨true, true, false, true, true, "user.flowsort"⟩ true [] []
        "documents" none).2 xdgTagsAttr = none :=
  ⟨by decide, by decide⟩

/-- C9 amended: with tagging enabled, set_category writes the category (and
the confidence when given) as attributes, returns False leaving the store
as already mutated when the filesystem rejects a write, and mirrors the
category into the XDG tag list exactly when both compatibility-mirroring and
automatic category tagging are enabled: the mirrored list gains the category
once (nothing changes when it is already present), keeps every other mirrored
tag, and is written sorted. -/
theorem set_category_spec (cfg : TagConfig) (fails : List String) (st : Xattrs)
    (category : String) (confidence : Option String)
    (hx1 : categoryAttr cfg ≠ xdgTagsAttr) (hx2 : confidenceAttr cfg ≠ xdgTagsAttr) :
    (categoryAttr cfg ∈ fails →
      set_category cfg true fails st category confidence = (false, st)) ∧
    (categoryAttr cfg ∉ fails →
      (confidence = none ∨ confidenceAttr cfg ∉ fails) →
      ((set_category cfg true fails st category confidence).1 = true ∧
        alookup (set_category cfg true fails st category confidence).2 (categoryAttr cfg) =
          some category ∧
        (∀ cs, confidence = some cs →
          alookup (set_category cfg true fails st category confidence).2
            (confidenceAttr cfg) = some cs) ∧
        ((cfg.xdg_tags_compatibility && cfg.auto_tag_categories) = true →
          xdgTagsAttr ∉ fails → category ∉ (get_xdg_tags cfg st).getD [] →
          alookup (set_category cfg true fails st category confidence).2 xdgTagsAttr =
            some (joinComma (sortStrings ((get_xdg_tags cfg st).getD [] ++ [category])))) ∧
        ((cfg.xdg_tags_compatibility && cfg.auto_tag_categories) = true →
          category ∈ (get_xdg_tags cfg st).getD [] →
          alookup (set_category cfg true fails st category confidence).2 xdgTagsAttr =
            alookup st xdgTagsAttr))) ∧
    (∀ t ∈ (get_xdg_tags cfg st).getD [],
      t ∈ sortStrings ((get_xdg_tags cfg st).getD [] ++ [category])) ∧
    category ∈ sortStrings ((get_xdg_tags cfg st).getD [] ++ [category]) ∧
    List.Pairwise (fun a b => leStr a b = true)
      (sortStrings ((get_xdg_tags cfg st).getD [] ++ [category])) := by
  refine ⟨?_, ?_, ?_, ?_, ?_⟩
  · intro hmem
    simp [set_category, setxattr, hmem]
  · intro hcat hconf
    have hset1 := setxattr_not_fails fails st (categoryAttr cfg) category hcat
    have hxdg1 : alookup ((categoryAttr cfg, category) ::
        removeEntry st (categoryAttr cfg)) xdgTagsAttr = alookup st xdgTagsAttr := by
      simp only [alookup, if_neg (Ne.symm hx1)]
      exact alookup_removeEntry_ne st (categoryAttr cfg) xdgTagsAttr (Ne.symm hx1)
    have hgx1 := get_xdg_tags_congr cfg hxdg1
    cases confidence with
    | none =>
      have hres : set_category cfg true fails st category none =
          (true, set_category_mirror cfg fails
            ((categoryAttr cfg, category) :: removeEntry st (categoryAttr cfg)) category) := by
        simp [set_category, hset1]
      refine ⟨by rw [hres], ?_, ?_, ?_, ?_⟩
      · rw [hres]
        simp only
        rw [set_category_mirror_alookup_ne cfg fails _ category (categoryAttr cfg) hx1]
        simp [alookup]
      · intro cs hcs
        exact absurd hcs (by simp)
      · intro hc hxf hnm
        rw [hres]
        simp only
        have hnm1 : category ∉ (get_xdg_tags cfg ((categoryAttr cfg, category) ::
            removeEntry st (categoryAttr cfg))).getD [] := by
          rw [hgx1]; exact hnm
        rw [set_category_mirror_of_not_mem cfg fails _ category hc hnm1 hxf]
        simp only [alookup, eq_self_iff_true, if_true]
        rw [hgx1]
      · intro hc hm
        rw [hres]
        simp only
        have hm1 : category ∈ (get_xdg_tags cfg ((categoryAttr cfg, category) ::
            removeEntry st (categoryAttr cfg))).getD [] := by
          rw [hgx1]; exact hm
        rw [set_category_mirror_of_mem cfg fails _ category hc hm1]
        exact hxdg1
    | some cs =>
      have hconf2 : confidenceAttr cfg ∉ fails := by
        rcases hconf with h | h
        · exact Option.noConfusion h
        · exact h
      have hset2 := setxattr_not_fails fails ((categoryAttr cfg, category) ::
        removeEntry st (categoryAttr cfg)) (confidenceAttr cfg) cs hconf2
      have hres : set_category cfg true fails st category (some cs) =
          (true, set_category_mirror cfg fails
            ((confidenceAttr cfg, cs) :: removeEntry ((categoryAttr cfg, category) ::
              removeEntry st (categoryAttr cfg)) (confidenceAttr cfg)) category) := by
        simp [set_category, hset1, hset2]
      have hxdg2 : alookup ((confidenceAttr cfg, cs) ::
          removeEntry ((categoryAttr cfg, category) ::
            removeEntry st (categoryAttr cfg)) (confidenceAttr cfg)) xdgTagsAttr =
          alookup st xdgTagsAttr := by
        simp only [alookup, if_neg (Ne.symm hx2)]
        rw [alookup_removeEntry_ne _ (confidenceAttr cfg) xdgTagsAttr (Ne.symm hx2)]
        exact hxdg1
      have hgx2 := get_xdg_tags_congr cfg hxdg2
      have hcatne := (flowsortAttrs_distinct cfg).2.1
      refine ⟨by rw [hres], ?_, ?_, ?_, ?_⟩
      · rw [hres]
        simp only
        rw [set_category_mirror_alookup_ne cfg fails _ category (categoryAttr cfg) hx1]
        simp only [alookup, if_neg hcatne]
        rw [alookup_removeEntry_ne _ (confidenceAttr cfg) (categoryAttr cfg) hcatne]
        simp [alookup]
      · intro cs2 hcs2
        injection hcs2 with hcs2
        subst hcs2
        rw [hres]
        simp only
        rw [set_category_mirror_alookup_ne cfg fails _ category (confidenceAttr cfg) hx2]
        simp [alookup]
      · intro hc hxf hnm
        rw [hres]
        simp only
        have hnm1 : category ∉ (get_xdg_tags cfg ((confidenceAttr cfg, cs) ::
            removeEntry ((categoryAttr cfg, category) ::
              removeEntry st (categoryAttr cfg)) (confidenceAttr cfg))).getD [] := by
          rw [hgx2]; exact hnm
        rw [set_category_mirror_of_not_mem cfg fails _ category hc hnm1 hxf]
        simp only [alookup, eq_self_iff_true, if_true]
        rw [hgx2]
      · intro hc hm
        rw [hres]
        simp only
        have hm1 : category ∈ (get_xdg_tags cfg ((confidenceAttr cfg, cs) ::
            removeEntry ((categoryAttr cfg, category) ::
              removeEntry st (categoryAttr cfg)) (confidenceAttr cfg))).getD [] := by
          rw [hgx2]; exact hm
        rw [set_category_mirror_of_mem cfg fails _ category hc hm1]
        exact hxdg2
  · intro t ht
    exact (mem_sortStrings _ t).mpr (List.mem_append_left _ ht)
  · exact (mem_sortStrings _ category).mpr (List.mem_append_right _ (by simp))
  · exact sorted_sortStrings _

/-- Shared example configuration for the tag-store witnesses: tagging, XDG
compatibility and automatic category tagging all enabled, default namespace. -/
def exampleTagConfig : TagConfig :=
  ⟨true, true, true, true, true, "user.flowsort"⟩

/-- Witness for C9 (amended) at a concrete store: a file already carrying the
mirrored tags work and projects gains category documents and confidence 0.9,
and the mirrored list becomes the sorted documents, projects, work. -/
theorem set_category_spec_witness :
    (set_category exampleTagConfig true [] [("user.xdg.tags", "work,projects")]
        "documents" (some "0.9")).1 = true ∧
      alookup (set_category exampleTagConfig true [] [("user.xdg.tags", "work,projects")]
          "documents" (some "0.9")).2 (categoryAttr exampleTagConfig) = some "documents" ∧
      alookup (set_category exampleTagConfig true [] [("user.xdg.tags", "work,projects")]
          "documents" (some "0.9")).2 (confidenceAttr exampleTagConfig) = some "0.9" ∧
      alookup (set_category exampleTagConfig true [] [("user.xdg.tags", "work,projects")]
          "documents" (some "0.9")).2 xdgTagsAttr = some "documents,projects,work" := by
  have h := set_category_spec exampleTagConfig [] [("user.xdg.tags", "work,projects")]
    "documents" (some "0.9") (by decide) (by decide)
  have h2 := h.2.1 (by simp) (Or.inr (by simp))
  refine ⟨h2.1, h2.2.1, h2.2.2.1 "0.9" rfl, ?_⟩
  have h4 := h2.2.2.2.1 (by decide) (by simp) (by decide)
  rw [h4]
  decide

theorem clearStep_fst_of_absent (acc : Bool × Xattrs) (a : String)
    (h : alookup acc.2 a = none) : (clearStep acc a).1 = false := by
  simp [clearStep, removexattr, h]

theorem clearStep_fst_false (acc : Bool × Xattrs) (a : String) (h : acc.1 = false) :
    (clearStep acc a).1 = false := by
  cases halk : alookup acc.2 a <;> simp [clearStep, removexattr, halk, h]

theorem clearStep_snd_self (acc : Bool × Xattrs) (a : String) :
    alookup (clearStep acc a).2 a = none := by
  cases halk : alookup acc.2 a with
  | some v => simp [clearStep, removexattr, halk, alookup_removeEntry_self]
  | none => simp [clearStep, removexattr, halk]

theorem clearStep_snd_ne (acc : Bool × Xattrs) (a j : String) (h : j ≠ a) :
    alookup (clearStep acc a).2 j = alookup acc.2 j := by
  cases halk : alookup acc.2 a with
  | some v =>
    simp only [clearStep, removexattr, halk]
    exact alookup_removeEntry_ne acc.2 a j h
  | none => simp [clearStep, removexattr, halk]

theorem clearStep_snd_none (acc : Bool × Xattrs) (a j : String)
    (h : alookup acc.2 j = none) : alookup (clearStep acc a).2 j = none := by
  by_cases hj : j = a
  · subst hj
    exact clearStep_snd_self acc j
  · rw [clearStep_snd_ne acc a j hj]
    exact h

theorem clearXdg_fst (cfg : TagConfig) (r : Bool × Xattrs) : (clearXdg cfg r).1 = r.1 := by
  by_cases hc : cfg.xdg_tags_compatibility = true
  · simp only [clearXdg, hc, if_true]
    cases halk : alookup r.2 xdgTagsAttr <;> simp [removexattr, halk]
  · simp [clearXdg, hc]

theorem clearXdg_snd_none (cfg : TagConfig) (r : Bool × Xattrs) (j : String)
    (h : alookup r.2 j = none) : alookup (clearXdg cfg r).2 j = none := by
  by_cases hc : cfg.xdg_tags_compatibility = true
  · simp only [clearXdg, hc, if_true]
    cases halk : alookup r.2 xdgTagsAttr with
    | some v =>
      simp only [removexattr, halk]
      exact alookup_removeEntry_none r.2 xdgTagsAttr j h
    | none => simp [removexattr, halk, h]
  · simp [clearXdg, hc, h]

/-- C10: with tagging enabled, clear_all_tags returns False whenever at least
one of the three native FlowSort attributes (category, tags, confidence) is
absent at call time, even though the call removes every FlowSort attribute
that does exist: after the call none of the three is present.  Clearing a file
that carries only a category tag therefore succeeds in effect but reports
failure. -/
theorem clear_all_tags_spec (cfg : TagConfig) (st : Xattrs)
    (habs : alookup st (categoryAttr cfg) = none ∨ alookup st (tagsAttr cfg) = none ∨
      alookup st (confidenceAttr cfg) = none) :
    (clear_all_tags cfg true st).1 = false ∧
      alookup (clear_all_tags cfg true st).2 (categoryAttr cfg) = none ∧
      alookup (clear_all_tags cfg true st).2 (tagsAttr cfg) = none ∧
      alookup (clear_all_tags cfg true st).2 (confidenceAttr cfg) = none := by
  obtain ⟨hd1, hd2, hd3⟩ := flowsortAttrs_distinct cfg
  have hfold : clear_all_tags cfg true st =
      clearXdg cfg (clearStep (clearStep (clearStep (true, st) (categoryAttr cfg))
        (tagsAttr cfg)) (confidenceAttr cfg)) := rfl
  refine ⟨?_, ?_, ?_, ?_⟩
  · rw [hfold, clearXdg_fst]
    rcases habs with h | h | h
    · exact clearStep_fst_false _ _ (clearStep_fst_false _ _
        (clearStep_fst_of_absent (true, st) (categoryAttr cfg) h))
    · have h1 : alookup (clearStep (true, st) (categoryAttr cfg)).2 (tagsAttr cfg) =
          alookup st (tagsAttr cfg) :=
        clearStep_snd_ne (true, st) (categoryAttr cfg) (tagsAttr cfg) (Ne.symm hd1)
      exact clearStep_fst_false _ _
        (clearStep_fst_of_absent _ (tagsAttr cfg) (h1.trans h))
    · have h1 : alookup (clearStep (true, st) (categoryAttr cfg)).2 (confidenceAttr cfg) =
          alookup st (confidenceAttr cfg) :=
        clearStep_snd_ne (true, st) (categoryAttr cfg) (confidenceAttr cfg) (Ne.symm hd2)
      have h2 : alookup (clearStep (clearStep (true, st) (categoryAttr cfg))
          (tagsAttr cfg)).2 (confidenceAttr cfg) =
          alookup (clearStep (true, st) (categoryAttr cfg)).2 (confidenceAttr cfg) :=
        clearStep_snd_ne _ (tagsAttr cfg) (confidenceAttr cfg) (Ne.symm hd3)
      exact clearStep_fst_of_absent _ (confidenceAttr cfg) ((h2.trans h1).trans h)
  · rw [hfold]
    apply clearXdg_snd_none
    apply clearStep_snd_none
    apply clearStep_snd_none
    exact clearStep_snd_self (true, st) (categoryAttr cfg)
  · rw [hfold]
    apply clearXdg_snd_none
    apply clearStep_snd_none
    exact clearStep_snd_self _ (tagsAttr cfg)
  · rw [hfold]
    apply clearXdg_snd_none
    exact clearStep_snd_self _ (confidenceAttr cfg)

/-- Witness for C10: a file carrying only the category attribute is cleared in
effect (the attribute is removed) but the call reports failure, because the
tags and confidence attributes were absent. -/
theorem clear_all_tags_spec_witness :
    (clear_all_tags exampleTagConfig true [("user.flowsort.category", "documents")]).1 =
        false ∧
      alookup (clear_all_tags exampleTagConfig true
        [("user.flowsort.category", "documents")]).2 (categoryAttr exampleTagConfig) =
        none := by
  have h := clear_all_tags_spec exampleTagConfig [("user.flowsort.category", "documents")]
    (Or.inr (Or.inl (by decide)))
  exact ⟨h.1, h.2.1⟩

end Flowsort
